import Mathlib

/-!
Shallow embedding of the gmoney Weighted Exact-Partition Engine:
the scalar splitter `Split` (pkg/allocate, Largest Remainder Method) and the
hierarchical allocator `AllocateTree`/`distribute` over weighted trees,
together with proofs about them.

Modelling conventions:
* Go `int64` values are `Int`s; wherever the Go code performs native `int64`
  arithmetic (the `sumWeights` accumulation, `remainder -= base`, the
  `entries[i].base++` increment, and `big.Int.Int64()` narrowing) the embedding
  applies `wrap64`, two's-complement wraparound at 64 bits.  Go `int` is taken
  to be 64 bits wide (the common platform width).
* The `big.Int` intermediates (`Mul`, `Div`, `Mod`) are exact: Go `big.Int.Div`
  and `Mod` are Euclidean division, i.e. `Int.ediv` / `Int.emod`.
* `sort.Slice(entries, less)` with `less i j := residue i > residue j` is
  modelled as a stable insertion sort on that comparator.  This is exactly what
  Go executes for slices shorter than 12 elements (pdqsort's insertion-sort
  regime); for longer slices Go's sort gives no stability guarantee, which is
  material to one of the claims about deterministic tie-breaking.
* A Go runtime panic (the remainder loop indexing past the end of `entries`,
  reachable only under `int64` overflow of the weight sum) is modelled as the
  outcome `SplitErr.panicked`.
* The in-place mutation of `Node.Allocated` is modelled by state passing:
  `distributeWith nd a` is Go's `nd.Allocated = a; distribute(nd)` and returns
  the mutated tree together with the propagated error, keeping all mutations
  performed before an error, exactly as the pointer-based Go code does.
-/

namespace GMoney

/-- Two's-complement wraparound of Go `int64` arithmetic: the unique value in
`[-2^63, 2^63)` congruent to `x` modulo `2^64`. -/
def wrap64 (x : Int) : Int := (x + 2 ^ 63) % 2 ^ 64 - 2 ^ 63

/-- Models `money.Money`: an `int64` amount in minor units plus a currency code
(pkg/tax source of the shared `Money` type). -/
structure Money where
  amount : Int
  currency : String
  deriving DecidableEq, Repr

/-- Failure modes of `Split`: the `ErrInvalidWeights` error value, and the
runtime index-out-of-range panic of the remainder loop (reachable only when
the native `int64` weight-sum accumulation overflows). -/
inductive SplitErr where
  | invalidWeights
  | panicked
  deriving DecidableEq, Repr

/-- Outcome of the amount-level splitter. -/
inductive SplitAmountsResult where
  | ok (parts : List Int)
  | error (e : SplitErr)
  deriving DecidableEq, Repr

/-- Outcome of `Split` (Money level, mirroring `([]money.Money, error)`). -/
inductive SplitResult where
  | ok (parts : List Money)
  | error (e : SplitErr)
  deriving DecidableEq, Repr

/-- The local `entry` struct of `Split`: original index, floored base share,
and the residue (the claim to the remainder penny). -/
structure Entry where
  index : Nat
  base : Int
  residue : Int
  deriving DecidableEq, Repr

/-- The `sumWeights` accumulation loop: `sumWeights += int64(w)`, native
`int64` arithmetic, hence wrapping. -/
def sumWeights64 (weights : List Int) : Int :=
  weights.foldl (fun s w => wrap64 (s + w)) 0

/-- Pass 1 of `Split`: for each weight build an `entry` with
`base = (total*weight) div sumWeights` and `residue = (total*weight) mod
sumWeights`, the product taken exactly (big.Int) and the quotient narrowed
back with `Int64()` (wrap). `i` is the index of the first weight. -/
def mkEntries (totalAmount sumWeights : Int) : Nat → List Int → List Entry
  | _, [] => []
  | i, w :: ws =>
    { index := i
      base := wrap64 ((totalAmount * w).ediv sumWeights)
      residue := wrap64 ((totalAmount * w).emod sumWeights) } ::
      mkEntries totalAmount sumWeights (i + 1) ws

/-- The `remainder` accumulation interleaved with pass 1:
`remainder := totalAmount` then `remainder -= base` per entry, native `int64`
arithmetic. -/
def computeRemainder (totalAmount : Int) (entries : List Entry) : Int :=
  entries.foldl (fun rem e => wrap64 (rem - e.base)) totalAmount

/-- One step of the insertion sort modelling
`sort.Slice(entries, func(i, j) { return entries[i].residue > entries[j].residue })`:
an earlier element is placed before a later one unless the later one has a
strictly larger residue, which is the stable behaviour of Go's small-slice
insertion sort under that comparator. -/
def insertEntry (e : Entry) : List Entry → List Entry
  | [] => [e]
  | f :: l => if f.residue ≤ e.residue then e :: f :: l else f :: insertEntry e l

/-- Pass 2's sort of the entries by residue descending. -/
def sortEntries : List Entry → List Entry
  | [] => []
  | e :: l => insertEntry e (sortEntries l)

/-- The remainder-distribution loop `for i := 0; i < int(remainder); i++ {
entries[i].base++ }` restricted to the in-bounds iterations; the increment is
native `int64`. -/
def bumpTop : Nat → List Entry → List Entry
  | 0, l => l
  | _ + 1, [] => []
  | k + 1, e :: l => { e with base := wrap64 (e.base + 1) } :: bumpTop k l

/-- Pass 3: `finalParts[e.index] = e.base` over a zero-initialised slice. -/
def writeParts (entries : List Entry) (finalParts : List Int) : List Int :=
  entries.foldl (fun acc e => acc.set e.index e.base) finalParts

/-- The amount-level core of `Split` (pkg/allocate `Split`, with the `Money`
wrapper peeled off): validation, pass 1, pass 2 (sort and remainder
distribution — `panicked` when the loop would index past the entries slice),
pass 3. -/
def splitAmounts (totalAmount : Int) (weights : List Int) : SplitAmountsResult :=
  if weights.isEmpty then .error .invalidWeights
  else
    let sumWeights := sumWeights64 weights
    if sumWeights = 0 then .error .invalidWeights
    else
      let entries := mkEntries totalAmount sumWeights 0 weights
      let remainder := computeRemainder totalAmount entries
      if (weights.length : Int) < remainder then .error .panicked
      else
        .ok (writeParts (bumpTop remainder.toNat (sortEntries entries))
          (List.replicate weights.length 0))

/-- `Split(total money.Money, weights []int) ([]money.Money, error)`: runs the
amount-level split on `total.Amount()` and reattaches `total.Currency()` via
`money.New`. -/
def Split (total : Money) (weights : List Int) : SplitResult :=
  match splitAmounts total.amount weights with
  | .ok parts => .ok (parts.map fun amt => Money.mk amt total.currency)
  | .error e => .error e

/-- A bucket in the allocation hierarchy (`Node` of pkg/allocate). -/
inductive Node where
  | mk (name : String) (weight : Int) (children : List Node) (allocated : Money)

def Node.name : Node → String
  | .mk nm _ _ _ => nm

def Node.weight : Node → Int
  | .mk _ w _ _ => w

def Node.children : Node → List Node
  | .mk _ _ cs _ => cs

def Node.allocated : Node → Money
  | .mk _ _ _ a => a

/-- `NewNode`: builds a node with the zero `Money` value for `Allocated`. -/
def NewNode (name : String) (weight : Int) (children : List Node) : Node :=
  .mk name weight children ⟨0, ""⟩

mutual
/-- `node.Allocated = a` followed by `distribute(node)`: assigns the amount,
then (unless the node is a leaf) collects the children's weights, splits the
node's allocated money over them, and hands the parts to the child loop.
Returns the tree as mutated so far plus the propagated error. -/
def distributeWith : Node → Money → Node × Option SplitErr
  | .mk nm w cs _, a =>
    if cs.isEmpty then (.mk nm w cs a, none)
    else
      match Split a (cs.map Node.weight) with
      | .error e => (.mk nm w cs a, some e)
      | .ok amounts =>
        let p := distributeList cs amounts
        (.mk nm w p.1 a, p.2)

/-- The `for i, child := range parent.Children` loop of `distribute`: assigns
`child.Allocated = amounts[i]` and immediately recurses into that child before
touching the next sibling; on error the remaining siblings are returned
unmodified. -/
def distributeList : List Node → List Money → List Node × Option SplitErr
  | [], _ => ([], none)
  | c :: cs, amounts =>
    let p := distributeWith c (amounts.headD ⟨0, ""⟩)
    match p.2 with
    | some err => (p.1 :: cs, some err)
    | none =>
      let q := distributeList cs amounts.tail
      (p.1 :: q.1, q.2)
end

/-- `AllocateTree(root, total)`: assigns the total to the root, then
distributes recursively.  Returns the mutated tree and the error, if any. -/
def AllocateTree (root : Node) (total : Money) : Node × Option SplitErr :=
  distributeWith root total

mutual
/-- Structural size measure used for induction over trees. -/
def Node.size : Node → Nat
  | .mk _ _ cs _ => 1 + Node.sizeList cs

def Node.sizeList : List Node → Nat
  | [] => 0
  | c :: cs => 1 + Node.size c + Node.sizeList cs
end

mutual
/-- Erases every `Allocated` field of a tree, keeping names, weights and the
child list structure: two trees agree on everything but allocations iff their
erasures are equal. -/
def Node.eraseAlloc : Node → Node
  | .mk nm w cs _ => .mk nm w (Node.eraseAllocList cs) ⟨0, ""⟩

def Node.eraseAllocList : List Node → List Node
  | [] => []
  | c :: cs => Node.eraseAlloc c :: Node.eraseAllocList cs
end

/-- Validity of one sibling weight list: non-empty is not required here (a
leaf has no weights); the checks are those needed for the splitter to operate
exactly: non-negative entries, a strictly positive sum that fits in `int64`,
and a slice-length below `2^63` (a Go slice invariant). -/
def goodWeights (ws : List Int) : Bool :=
  ws.all (fun w => decide (0 ≤ w)) && decide (0 < ws.sum) &&
    decide (ws.sum < 2 ^ 63) && decide ((ws.length : Int) < 2 ^ 63)

mutual
/-- Every internal node of the tree has a valid sibling weight list. -/
def Node.validB : Node → Bool
  | .mk _ _ cs _ =>
    (cs.isEmpty || goodWeights (cs.map Node.weight)) && Node.validListB cs

def Node.validListB : List Node → Bool
  | [] => true
  | c :: cs => Node.validB c && Node.validListB cs
end

mutual
/-- Tree conservation, checked recursively: every internal node's allocated
amount equals the sum of its children's allocated amounts. -/
def Node.conservedB : Node → Bool
  | .mk _ _ cs a =>
    (cs.isEmpty ||
      decide (a.amount = (cs.map fun c => (Node.allocated c).amount).sum)) &&
      Node.conservedListB cs

def Node.conservedListB : List Node → Bool
  | [] => true
  | c :: cs => Node.conservedB c && Node.conservedListB cs
end

/-- Descending (weak) order on residues, the post-condition of pass 2's sort. -/
def residueGE (a b : Entry) : Prop := b.residue ≤ a.residue

/-- The zero `Node` used as a `getD` default when stating positional facts
about child lists. -/
def defaultNode : Node := .mk "" 0 [] ⟨0, ""⟩

/-! ### Arithmetic exactness lemmas -/

theorem wrap64_eq_self {x : Int} (h1 : -2 ^ 63 ≤ x) (h2 : x < 2 ^ 63) :
    wrap64 x = x := by
  unfold wrap64
  have : (x + 2 ^ 63) % 2 ^ 64 = x + 2 ^ 63 :=
    Int.emod_eq_of_lt (by omega) (by omega)
  omega

theorem foldl_wrapadd_eq (ws : List Int) :
    ∀ acc : Int, 0 ≤ acc → (∀ w ∈ ws, 0 ≤ w) → acc + ws.sum < 2 ^ 63 →
      ws.foldl (fun s w => wrap64 (s + w)) acc = acc + ws.sum := by
  induction ws with
  | nil => intro acc _ _ _; simp
  | cons w ws ih =>
    intro acc hacc hnn hub
    have hw : 0 ≤ w := hnn w (by simp)
    have hrest : 0 ≤ ws.sum := List.sum_nonneg fun x hx => hnn x (by simp [hx])
    have hsum : acc + (w :: ws).sum = acc + w + ws.sum := by simp; ring
    have hstep : wrap64 (acc + w) = acc + w :=
      wrap64_eq_self (by omega) (by omega)
    simp only [List.foldl_cons, hstep]
    rw [ih (acc + w) (by omega) (fun x hx => hnn x (by simp [hx])) (by omega)]
    omega

theorem sumWeights64_eq_sum {ws : List Int} (hnn : ∀ w ∈ ws, 0 ≤ w)
    (hub : ws.sum < 2 ^ 63) : sumWeights64 ws = ws.sum := by
  have := foldl_wrapadd_eq ws 0 le_rfl hnn (by omega)
  simpa [sumWeights64] using this

theorem mkEntries_length (t S : Int) : ∀ (i : Nat) (ws : List Int),
    (mkEntries t S i ws).length = ws.length := by
  intro i ws
  induction ws generalizing i with
  | nil => simp [mkEntries]
  | cons w ws ih => simp [mkEntries, ih]

theorem mkEntries_getElem (t S : Int) :
    ∀ (ws : List Int) (i k : Nat) (h : k < ws.length)
      (h2 : k < (mkEntries t S i ws).length),
      (mkEntries t S i ws)[k] =
        { index := i + k
          base := wrap64 ((t * ws[k]).ediv S)
          residue := wrap64 ((t * ws[k]).emod S) } := by
  intro ws
  induction ws with
  | nil => intro i k h h2; simp at h
  | cons w ws ih =>
    intro i k h h2
    cases k with
    | zero => simp [mkEntries]
    | succ k =>
      have hk : k < ws.length := by simpa using h
      have hk2 : k < (mkEntries t S (i + 1) ws).length := by
        rw [mkEntries_length]
        exact hk
      have := ih (i + 1) k hk hk2
      simp only [mkEntries, List.getElem_cons_succ, this]
      congr 1
      omega

theorem mkEntries_map_index (t S : Int) : ∀ (i : Nat) (ws : List Int),
    (mkEntries t S i ws).map (·.index) = List.range' i ws.length := by
  intro i ws
  induction ws generalizing i with
  | nil => simp [mkEntries]
  | cons w ws ih => simp [mkEntries, List.range'_succ, ih]

theorem mkEntries_map_base (t S : Int) : ∀ (i : Nat) (ws : List Int),
    (mkEntries t S i ws).map (·.base) =
      ws.map (fun w => wrap64 ((t * w).ediv S)) := by
  intro i ws
  induction ws generalizing i with
  | nil => simp [mkEntries]
  | cons w ws ih => simp [mkEntries, ih]

theorem mkEntries_map_residue (t S : Int) : ∀ (i : Nat) (ws : List Int),
    (mkEntries t S i ws).map (·.residue) =
      ws.map (fun w => wrap64 ((t * w).emod S)) := by
  intro i ws
  induction ws generalizing i with
  | nil => simp [mkEntries]
  | cons w ws ih => simp [mkEntries, ih]

/-- Euclidean division identity summed over a weight list. -/
theorem sum_ediv_emod (t S : Int) : ∀ ws : List Int,
    S * ((ws.map fun w => (t * w).ediv S).sum) +
      ((ws.map fun w => (t * w).emod S).sum) = t * ws.sum := by
  intro ws
  induction ws with
  | nil => simp
  | cons w ws ih =>
    have hw : S * ((t * w).ediv S) + (t * w).emod S = t * w :=
      Int.ediv_add_emod (t * w) S
    simp only [List.map_cons, List.sum_cons, List.sum_cons, mul_add]

    nlinarith [ih, hw]

/-- Exactness of the wrapped subtraction fold when every subtrahend is
non-negative (the `total ≥ 0` side). -/
theorem foldl_wrapsub_eq_nonneg (bs : List Int) :
    ∀ acc : Int, (∀ b ∈ bs, 0 ≤ b) → 0 ≤ acc - bs.sum → acc < 2 ^ 63 →
      bs.foldl (fun r b => wrap64 (r - b)) acc = acc - bs.sum := by
  induction bs with
  | nil => intro acc _ _ _; simp
  | cons b bs ih =>
    intro acc hnn hlo hub
    have hb : 0 ≤ b := hnn b (by simp)
    have hrest : 0 ≤ bs.sum := List.sum_nonneg fun x hx => hnn x (by simp [hx])
    have hsum : (b :: bs).sum = b + bs.sum := by simp
    have hstep : wrap64 (acc - b) = acc - b :=
      wrap64_eq_self (by omega) (by omega)
    simp only [List.foldl_cons, hstep]
    rw [ih (acc - b) (fun x hx => hnn x (by simp [hx])) (by omega) (by omega)]
    omega

theorem list_sum_nonpos : ∀ {bs : List Int}, (∀ b ∈ bs, b ≤ 0) → bs.sum ≤ 0 := by
  intro bs
  induction bs with
  | nil => simp
  | cons b bs ih =>
    intro h
    have := ih fun x hx => h x (by simp [hx])
    have := h b (by simp)
    simp only [List.sum_cons]
    omega

/-- Exactness of the wrapped subtraction fold when every subtrahend is
non-positive (the `total ≤ 0` side). -/
theorem foldl_wrapsub_eq_nonpos (bs : List Int) :
    ∀ acc : Int, (∀ b ∈ bs, b ≤ 0) → acc - bs.sum < 2 ^ 63 → -2 ^ 63 ≤ acc →
      bs.foldl (fun r b => wrap64 (r - b)) acc = acc - bs.sum := by
  induction bs with
  | nil => intro acc _ _ _; simp
  | cons b bs ih =>
    intro acc hnp hub hlo
    have hb : b ≤ 0 := hnp b (by simp)
    have hrest : bs.sum ≤ 0 := list_sum_nonpos fun x hx => hnp x (by simp [hx])
    have hsum : (b :: bs).sum = b + bs.sum := by simp
    have hstep : wrap64 (acc - b) = acc - b :=
      wrap64_eq_self (by omega) (by omega)
    simp only [List.foldl_cons, hstep]
    rw [ih (acc - b) (fun x hx => hnp x (by simp [hx])) (by omega) (by omega)]
    omega

/-! ### Sorting lemmas -/

theorem insertEntry_perm (e : Entry) : ∀ l : List Entry,
    (insertEntry e l).Perm (e :: l) := by
  intro l
  induction l with
  | nil => simp [insertEntry]
  | cons f l ih =>
    by_cases h : f.residue ≤ e.residue
    · simp [insertEntry, h]
    · simp only [insertEntry, if_neg h]
      exact (ih.cons f).trans (List.Perm.swap e f l)

theorem sortEntries_perm : ∀ l : List Entry, (sortEntries l).Perm l := by
  intro l
  induction l with
  | nil => simp [sortEntries]
  | cons e l ih =>
    exact (insertEntry_perm e (sortEntries l)).trans (ih.cons e)

theorem insertEntry_pairwise (e : Entry) : ∀ l : List Entry,
    l.Pairwise residueGE → (insertEntry e l).Pairwise residueGE := by
  intro l
  induction l with
  | nil => intro _; simp [insertEntry, List.Pairwise]
  | cons f l ih =>
    intro hp
    rw [List.pairwise_cons] at hp
    obtain ⟨hf, hl⟩ := hp
    by_cases h : f.residue ≤ e.residue
    · simp only [insertEntry, if_pos h]
      refine List.Pairwise.cons ?_ (List.Pairwise.cons hf hl)
      intro x hx
      rcases List.mem_cons.mp hx with hx | hx
      · subst hx; exact h
      · exact le_trans (hf x hx) h
    · simp only [insertEntry, if_neg h]
      refine List.Pairwise.cons ?_ (ih hl)
      intro x hx
      have hx' : x ∈ e :: l := (insertEntry_perm e l).mem_iff.mp hx
      rcases List.mem_cons.mp hx' with hx' | hx'
      · subst hx'; exact le_of_not_le h
      · exact hf x hx'

theorem sortEntries_pairwise : ∀ l : List Entry,
    (sortEntries l).Pairwise residueGE := by
  intro l
  induction l with
  | nil => simp [sortEntries]
  | cons e l ih => exact insertEntry_pairwise e (sortEntries l) ih

theorem sortEntries_length (l : List Entry) :
    (sortEntries l).length = l.length :=
  (sortEntries_perm l).length_eq

/-! ### Remainder-distribution (bump) lemmas -/

theorem bumpTop_length : ∀ (k : Nat) (l : List Entry),
    (bumpTop k l).length = l.length := by
  intro k
  induction k with
  | zero => intro l; simp [bumpTop]
  | succ k ih =>
    intro l
    cases l with
    | nil => simp [bumpTop]
    | cons e l => simp [bumpTop, ih]

theorem bumpTop_getElem : ∀ (k : Nat) (l : List Entry) (p : Nat)
    (h : p < l.length) (h2 : p < (bumpTop k l).length),
    (bumpTop k l)[p] =
      if p < k then { l[p] with base := wrap64 (l[p].base + 1) } else l[p] := by
  intro k
  induction k with
  | zero => intro l p h h2; simp [bumpTop]
  | succ k ih =>
    intro l p h h2
    cases l with
    | nil => simp at h
    | cons e l =>
      cases p with
      | zero => simp [bumpTop]
      | succ p =>
        have hp : p < l.length := by simpa using h
        have hp2 : p < (bumpTop k l).length := by
          rw [bumpTop_length]
          exact hp
        have := ih l p hp hp2
        simp only [bumpTop, List.getElem_cons_succ, this]
        by_cases hpk : p < k
        · rw [if_pos hpk, if_pos (by omega)]
        · rw [if_neg hpk, if_neg (by omega)]

theorem bumpTop_map_index : ∀ (k : Nat) (l : List Entry),
    (bumpTop k l).map (·.index) = l.map (·.index) := by
  intro k
  induction k with
  | zero => intro l; simp [bumpTop]
  | succ k ih =>
    intro l
    cases l with
    | nil => simp [bumpTop]
    | cons e l => simp [bumpTop, ih]

theorem bumpTop_map_residue : ∀ (k : Nat) (l : List Entry),
    (bumpTop k l).map (·.residue) = l.map (·.residue) := by
  intro k
  induction k with
  | zero => intro l; simp [bumpTop]
  | succ k ih =>
    intro l
    cases l with
    | nil => simp [bumpTop]
    | cons e l => simp [bumpTop, ih]

/-- Sum of the bases after the bump loop, when none of the `k` performed
increments wraps. -/
theorem bumpTop_sum : ∀ (k : Nat) (l : List Entry), k ≤ l.length →
    (∀ p (hp : p < l.length), p < k → wrap64 (l[p].base + 1) = l[p].base + 1) →
    ((bumpTop k l).map (·.base)).sum = (l.map (·.base)).sum + k := by
  intro k
  induction k with
  | zero => intro l _ _; simp [bumpTop]
  | succ k ih =>
    intro l hk hok
    cases l with
    | nil => simp at hk
    | cons e l =>
      have h0 : wrap64 (e.base + 1) = e.base + 1 := by
        have := hok 0 (by simp) (by omega)
        simpa using this
      have hrest := ih l (by simpa using hk) (fun p hp hpk => by
        have := hok (p + 1) (by simpa using hp) (by omega)
        simpa using this)
      simp only [bumpTop, List.map_cons, List.sum_cons, hrest, h0]
      push_cast
      ring

/-! ### Reconstruction (`writeParts`) lemmas -/

theorem writeParts_nil (init : List Int) : writeParts [] init = init := rfl

theorem writeParts_cons (e : Entry) (es : List Entry) (init : List Int) :
    writeParts (e :: es) init = writeParts es (init.set e.index e.base) := rfl

/-- Splits a `Nodup` fact on the mapped indices of a cons. -/
theorem nodup_index_cons {e : Entry} {es : List Entry}
    (hnd : ((e :: es).map (·.index)).Nodup) :
    (∀ g ∈ es, g.index ≠ e.index) ∧ (es.map (·.index)).Nodup := by
  rw [List.map_cons, List.nodup_cons] at hnd
  refine ⟨fun g hg hcon => hnd.1 ?_, hnd.2⟩
  rw [← hcon]
  exact List.mem_map.mpr ⟨g, hg, rfl⟩

theorem writeParts_length : ∀ (es : List Entry) (init : List Int),
    (writeParts es init).length = init.length := by
  intro es
  induction es with
  | nil => intro init; simp [writeParts_nil]
  | cons e es ih =>
    intro init
    rw [writeParts_cons, ih]
    simp

theorem writeParts_getD_not_mem : ∀ (es : List Entry) (init : List Int)
    (i : Nat), (∀ e ∈ es, e.index ≠ i) →
    (writeParts es init).getD i 0 = init.getD i 0 := by
  intro es
  induction es with
  | nil => intro init i _; simp [writeParts_nil]
  | cons e es ih =>
    intro init i hne
    rw [writeParts_cons,
      ih (init.set e.index e.base) i (fun f hf => hne f (by simp [hf]))]
    have hne0 : e.index ≠ i := hne e (by simp)
    simp [List.getD_eq_getElem?_getD, List.getElem?_set_ne hne0]

theorem writeParts_getD_mem : ∀ (es : List Entry) (init : List Int) (e : Entry),
    (es.map (·.index)).Nodup → e ∈ es → e.index < init.length →
    (writeParts es init).getD e.index 0 = e.base := by
  intro es
  induction es with
  | nil => intro init e _ he _; simp at he
  | cons f es ih =>
    intro init e hnd he hlt
    obtain ⟨hne, hnd'⟩ := nodup_index_cons hnd
    rcases List.mem_cons.mp he with he | he
    · subst he
      rw [writeParts_cons,
        writeParts_getD_not_mem es (init.set e.index e.base) e.index hne]
      simp [List.getD_eq_getElem?_getD, List.getElem?_set_self', hlt]
    · rw [writeParts_cons]
      exact ih (init.set f.index f.base) e hnd' he (by simpa using hlt)

theorem list_sum_set (l : List Int) (i : Nat) (a : Int) (h : i < l.length) :
    (l.set i a).sum = l.sum - l[i] + a := by
  induction l generalizing i with
  | nil => simp at h
  | cons x l ih =>
    cases i with
    | zero => simp [List.set]; ring
    | succ i =>
      have hi : i < l.length := by simpa using h
      simp only [List.set, List.sum_cons, ih i hi, List.getElem_cons_succ]
      ring

theorem writeParts_sum : ∀ (es : List Entry) (init : List Int),
    (es.map (·.index)).Nodup → (∀ e ∈ es, e.index < init.length) →
    (∀ e ∈ es, init.getD e.index 0 = 0) →
    (writeParts es init).sum = init.sum + (es.map (·.base)).sum := by
  intro es
  induction es with
  | nil => intro init _ _ _; simp [writeParts_nil]
  | cons e es ih =>
    intro init hnd hlt hz
    obtain ⟨hne, hnd'⟩ := nodup_index_cons hnd
    have hei : e.index < init.length := hlt e (by simp)
    have hzi : init.getD e.index 0 = 0 := hz e (by simp)
    rw [writeParts_cons,
      ih (init.set e.index e.base) hnd'
        (fun g hg => by simpa using hlt g (by simp [hg]))
        (fun g hg => by
          rw [List.getD_eq_getElem?_getD,
            List.getElem?_set_ne (Ne.symm (hne g hg)),
            ← List.getD_eq_getElem?_getD]
          exact hz g (by simp [hg]))]
    rw [list_sum_set init e.index e.base hei]
    have hzi' : init[e.index] = 0 := by
      rw [← List.getD_eq_getElem init 0 hei]; exact hzi
    rw [hzi']
    simp only [List.map_cons, List.sum_cons]
    ring

theorem replicate_getD (n : Nat) (i : Nat) :
    (List.replicate n (0 : Int)).getD i 0 = 0 := by
  rw [List.getD_eq_getElem?_getD, List.getElem?_replicate]
  by_cases h : i < n <;> simp [h]

/-! ### Index bookkeeping for the entries -/

theorem mkEntries_index_ge (t S : Int) : ∀ (ws : List Int) (i : Nat),
    ∀ e ∈ mkEntries t S i ws, i ≤ e.index := by
  intro ws
  induction ws with
  | nil => intro i e he; simp [mkEntries] at he
  | cons w ws ih =>
    intro i e he
    rcases List.mem_cons.mp he with he | he
    · subst he; simp
    · have := ih (i + 1) e he; omega

theorem mkEntries_index_lt (t S : Int) : ∀ (ws : List Int) (i : Nat),
    ∀ e ∈ mkEntries t S i ws, e.index < i + ws.length := by
  intro ws
  induction ws with
  | nil => intro i e he; simp [mkEntries] at he
  | cons w ws ih =>
    intro i e he
    rcases List.mem_cons.mp he with he | he
    · subst he; simp
    · have := ih (i + 1) e he; simp only [List.length_cons]; omega

theorem mkEntries_index_nodup (t S : Int) : ∀ (ws : List Int) (i : Nat),
    ((mkEntries t S i ws).map (·.index)).Nodup := by
  intro ws
  induction ws with
  | nil => intro i; simp [mkEntries]
  | cons w ws ih =>
    intro i
    simp only [mkEntries, List.map_cons, List.nodup_cons]
    refine ⟨?_, ih (i + 1)⟩
    intro hmem
    obtain ⟨e, he, hei⟩ := List.mem_map.mp hmem
    have := mkEntries_index_ge t S ws (i + 1) e he
    omega

/-- In a residue-descending list whose residues lie in `[0, S)` and sum to
`k * S`, the first `k` residues are strictly positive: were some position
`p < k` zero, all later residues would be zero as well and the total would be
at most `p * (S - 1) < k * S`. -/
theorem sorted_residues_pos (l : List Entry) (S : Int) (hS : 0 < S)
    (hpair : l.Pairwise residueGE)
    (hnn : ∀ e ∈ l, 0 ≤ e.residue) (hub : ∀ e ∈ l, e.residue < S)
    (k : Nat) (hsum : (l.map (·.residue)).sum = (k : Int) * S) :
    ∀ p (hp : p < l.length), p < k → 0 < l[p].residue := by
  intro p hp hpk
  by_contra hcon
  push_neg at hcon
  have hres0 : l[p].residue = 0 :=
    le_antisymm hcon (hnn _ (List.getElem_mem hp))
  have hpairg := List.pairwise_iff_getElem.mp hpair
  set L := l.map (·.residue) with hL
  have hLlen : L.length = l.length := by simp [hL]
  have hLp : ∀ q (hq : q < l.length) (hq2 : q < L.length),
      L[q] = l[q].residue := by
    intro q hq hq2
    simp [hL]
  -- the suffix from position p is all zero
  have hdrop : ((L.drop p).sum) = 0 := by
    apply List.sum_eq_zero
    intro x hx
    obtain ⟨q, hq, hxq⟩ := List.getElem_of_mem hx
    have hq' : p + q < l.length := by
      have := hq
      simp only [List.length_drop, hLlen] at this
      omega
    have hq2 : p + q < L.length := by omega
    have hget : (L.drop p)[q] = L[p + q] := List.getElem_drop L
    have hval : L[p + q] = l[p + q].residue := hLp _ hq' hq2
    rcases Nat.eq_zero_or_pos q with hq0 | hq0
    · subst hq0
      rw [← hxq, hget, hval]
      simpa using hres0
    · have hlt : l[p + q].residue ≤ l[p].residue :=
        hpairg p (p + q) hp hq' (by omega)
      have hge : 0 ≤ l[p + q].residue := hnn _ (List.getElem_mem hq')
      rw [← hxq, hget, hval]
      omega
  -- the first p residues total at most p * (S - 1)
  have htake : (L.take p).sum ≤ (p : Int) * (S - 1) := by
    have hlen' : (L.take p).length = p := by
      simp only [List.length_take, hLlen]
      omega
    have := List.sum_le_card_nsmul (L.take p) (S - 1) (by
      intro x hx
      have hx' : x ∈ L := List.mem_of_mem_take hx
      obtain ⟨e, he, hxe⟩ := List.mem_map.mp hx'
      have := hub e he
      omega)
    rw [hlen'] at this
    simpa [nsmul_eq_mul] using this
  have hsplit : (L.take p).sum + (L.drop p).sum = L.sum :=
    List.sum_take_add_sum_drop L p
  have hkS : L.sum = (k : Int) * S := hsum
  have hps : (p : Int) * S < (k : Int) * S := by
    apply mul_lt_mul_of_pos_right _ hS
    exact_mod_cast hpk
  have hp1 : (0 : Int) ≤ (p : Int) := Int.ofNat_nonneg p
  nlinarith

/-- The floored base share lies between `min total 0` and `max total 0`
whenever the weight lies in `[0, S]` and `S > 0`. -/
theorem ediv_base_bounds (t S w : Int) (hS : 0 < S) (hw0 : 0 ≤ w)
    (hwS : w ≤ S) :
    min t 0 ≤ (t * w).ediv S ∧ (t * w).ediv S ≤ max t 0 := by
  rcases le_or_lt 0 t with ht | ht
  · have hlo : 0 ≤ (t * w).ediv S := Int.ediv_nonneg (mul_nonneg ht hw0) hS.le
    have hhi : (t * w).ediv S ≤ (t * S).ediv S :=
      Int.ediv_le_ediv hS (mul_le_mul_of_nonneg_left hwS ht)
    have hc : (t * S).ediv S = t := Int.mul_ediv_cancel t (ne_of_gt hS)
    rw [hc] at hhi
    constructor
    · exact le_trans (min_le_right t 0) hlo
    · exact le_trans hhi (le_max_left t 0)
  · have hlo : (t * S).ediv S ≤ (t * w).ediv S :=
      Int.ediv_le_ediv hS (mul_le_mul_of_nonpos_left hwS ht.le)
    have hc : (t * S).ediv S = t := Int.mul_ediv_cancel t (ne_of_gt hS)
    rw [hc] at hlo
    have htw : t * w ≤ 0 := by nlinarith
    have h0 : (0 : Int).ediv S = 0 := Int.zero_ediv S
    have hhi : (t * w).ediv S ≤ 0 := le_of_le_of_eq (Int.ediv_le_ediv hS htw) h0
    constructor
    · exact le_trans (min_le_left t 0) hlo
    · exact le_trans hhi (le_max_right t 0)

/-- If the residue is strictly positive, the base share is strictly below
`max total 0`, so one increment cannot leave `[min total 0, max total 0]`. -/
theorem base_succ_le (t S w : Int) (hS : 0 < S) (hw0 : 0 ≤ w) (hwS : w ≤ S)
    (hr : 0 < (t * w).emod S) :
    (t * w).ediv S + 1 ≤ max t 0 := by
  have hid : S * ((t * w).ediv S) + (t * w).emod S = t * w :=
    Int.ediv_add_emod (t * w) S
  have hhi := (ediv_base_bounds t S w hS hw0 hwS).2
  rcases le_or_lt 0 t with ht | ht
  · rw [max_eq_left ht] at hhi ⊢
    rcases eq_or_lt_of_le hhi with hb | hb
    · exfalso
      rw [hb] at hid
      nlinarith
    · omega
  · rw [max_eq_right ht.le] at hhi ⊢
    rcases eq_or_lt_of_le hhi with hb | hb
    · exfalso
      rw [hb] at hid
      nlinarith
    · omega

/-- Exact behaviour of the splitter core on inputs where no native `int64`
operation wraps: non-negative weights, strictly positive sum below `2^63`, an
`int64` total, and a slice length below `2^63`.  Yields the success outcome,
the exact length, conservation, per-part bounds, and monotonicity in the
weights for non-negative totals. -/
theorem splitAmounts_spec (t : Int) (ws : List Int)
    (hne : ws ≠ []) (hnn : ∀ w ∈ ws, 0 ≤ w) (hpos : 0 < ws.sum)
    (hub : ws.sum < 2 ^ 63) (ht1 : -2 ^ 63 ≤ t) (ht2 : t < 2 ^ 63)
    (hlen : (ws.length : Int) < 2 ^ 63) :
    ∃ parts : List Int,
      splitAmounts t ws = .ok parts ∧
      parts.length = ws.length ∧
      parts.sum = t ∧
      (∀ x ∈ parts, min t 0 ≤ x ∧ x ≤ max t 0) ∧
      (∀ i j, i < ws.length → j < ws.length → 0 ≤ t →
        ws.getD j 0 < ws.getD i 0 → parts.getD j 0 ≤ parts.getD i 0) := by
  set n := ws.length with hn
  set S := ws.sum with hSdef
  have hn1 : 1 ≤ n := by
    cases ws with
    | nil => exact absurd rfl hne
    | cons w ws => simp [hn]
  have hS : sumWeights64 ws = S := sumWeights64_eq_sum hnn (by omega)
  have hwb : ∀ w ∈ ws, 0 ≤ w ∧ w ≤ S := fun w hw =>
    ⟨hnn w hw, List.single_le_sum hnn w hw⟩
  have hminlo : -2 ^ 63 ≤ min t 0 := le_min ht1 (by norm_num)
  have hmaxhi : max t 0 < 2 ^ 63 := max_lt ht2 (by norm_num)
  set entries := mkEntries t S 0 ws with hent
  -- exact (wrap-free) maps of the entry fields
  have hmapb : entries.map (·.base) = ws.map fun w => (t * w).ediv S := by
    rw [hent, mkEntries_map_base]
    apply List.map_congr_left
    intro w hw
    obtain ⟨hw0, hwS⟩ := hwb w hw
    have hb := ediv_base_bounds t S w hpos hw0 hwS
    exact wrap64_eq_self (by omega) (by omega)
  have hmapr : entries.map (·.residue) = ws.map fun w => (t * w).emod S := by
    rw [hent, mkEntries_map_residue]
    apply List.map_congr_left
    intro w hw
    have hr0 : 0 ≤ (t * w).emod S := Int.emod_nonneg _ (ne_of_gt hpos)
    have hrS : (t * w).emod S < S := Int.emod_lt_of_pos _ hpos
    exact wrap64_eq_self (by omega) (by omega)
  set Bsum := (ws.map fun w => (t * w).ediv S).sum with hB
  set Rsum := (ws.map fun w => (t * w).emod S).sum with hR
  have hiden : S * Bsum + Rsum = t * S := sum_ediv_emod t S ws
  have hRnn : 0 ≤ Rsum := by
    apply List.sum_nonneg
    intro x hx
    obtain ⟨w, hw, rfl⟩ := List.mem_map.mp hx
    exact Int.emod_nonneg _ (ne_of_gt hpos)
  have hRub : Rsum ≤ (n : Int) * (S - 1) := by
    have := List.sum_le_card_nsmul (ws.map fun w => (t * w).emod S) (S - 1)
      (by
        intro x hx
        obtain ⟨w, hw, rfl⟩ := List.mem_map.mp hx
        have h : (t * w).emod S < S := Int.emod_lt_of_pos (t * w) hpos
        omega)
    simpa [hR, nsmul_eq_mul] using this
  have hBt : S * (t - Bsum) = Rsum := by linear_combination (-1 : Int) * hiden
  have hrem_nn : 0 ≤ t - Bsum := by
    by_contra h
    push_neg at h
    have : S * (t - Bsum) < 0 := mul_neg_of_pos_of_neg hpos h
    linarith
  have hrem_lt : t - Bsum < (n : Int) := by
    by_contra h
    push_neg at h
    have h2 : S * (n : Int) ≤ S * (t - Bsum) := mul_le_mul_of_nonneg_left h hpos.le
    have h3 : (1 : Int) ≤ (n : Int) := by exact_mod_cast hn1
    nlinarith
  -- the remainder accumulation is exact
  have hcr : computeRemainder t entries = t - Bsum := by
    have hfold : computeRemainder t entries =
        (entries.map (·.base)).foldl (fun r b => wrap64 (r - b)) t := by
      unfold computeRemainder
      exact (List.foldl_map (fun e => e.base) (fun r b => wrap64 (r - b))
        entries t).symm
    rw [hfold, hmapb]
    rcases le_or_lt 0 t with ht | ht
    · apply foldl_wrapsub_eq_nonneg
      · intro b hb
        obtain ⟨w, hw, rfl⟩ := List.mem_map.mp hb
        obtain ⟨hw0, hwS⟩ := hwb w hw
        have := (ediv_base_bounds t S w hpos hw0 hwS).1
        rw [min_eq_right ht] at this
        exact this
      · exact hrem_nn
      · exact ht2
    · apply foldl_wrapsub_eq_nonpos
      · intro b hb
        obtain ⟨w, hw, rfl⟩ := List.mem_map.mp hb
        obtain ⟨hw0, hwS⟩ := hwb w hw
        have := (ediv_base_bounds t S w hpos hw0 hwS).2
        rw [max_eq_right ht.le] at this
        exact this
      · omega
      · exact ht1
  set k := (t - Bsum).toNat with hkdef
  have hk_int : (k : Int) = t - Bsum := Int.toNat_of_nonneg hrem_nn
  have hkn : k < n := by omega
  set sorted := sortEntries entries with hsorted
  have hperm : sorted.Perm entries := sortEntries_perm entries
  have hentlen : entries.length = n := by rw [hent, mkEntries_length]
  have hslen : sorted.length = n := by rw [hsorted, sortEntries_length, hentlen]
  have hspair : sorted.Pairwise residueGE := sortEntries_pairwise entries
  -- canonical shape of the entries
  have hent_elem : ∀ p (hp : p < n) (hp2 : p < entries.length),
      entries[p] =
        { index := p
          base := (t * ws[p]).ediv S
          residue := (t * ws[p]).emod S } := by
    intro p hp hp2
    have h1 := mkEntries_getElem t S ws 0 p hp hp2
    refine h1.trans ?_
    obtain ⟨hw0, hwS⟩ := hwb (ws[p]) (List.getElem_mem hp)
    have hb := ediv_base_bounds t S (ws[p]) hpos hw0 hwS
    have hr0 : 0 ≤ (t * ws[p]).emod S := Int.emod_nonneg _ (ne_of_gt hpos)
    have hrS : (t * ws[p]).emod S < S := Int.emod_lt_of_pos _ hpos
    rw [wrap64_eq_self (by omega) (by omega), wrap64_eq_self (by omega) (by omega)]
    simp
  have hent_shape : ∀ e ∈ entries, ∃ i, ∃ hi : i < n,
      e = { index := i
            base := (t * ws[i]).ediv S
            residue := (t * ws[i]).emod S } := by
    intro e he
    obtain ⟨p, hp, hpe⟩ := List.getElem_of_mem he
    have hp' : p < n := by omega
    exact ⟨p, hp', by rw [← hpe, hent_elem p hp' hp]⟩
  -- nonduplicate indices, propagated through sorting and bumping
  have hidx_ent : (entries.map (·.index)).Nodup := by
    rw [hent]; exact mkEntries_index_nodup t S ws 0
  have hidx_sorted : (sorted.map (·.index)).Nodup :=
    ((hperm.map (·.index)).nodup_iff).mpr hidx_ent
  set bumped := bumpTop k sorted with hbump
  have hbumplen : bumped.length = n := by rw [hbump, bumpTop_length, hslen]
  have hidx_bumped : (bumped.map (·.index)).Nodup := by
    rw [hbump, bumpTop_map_index]; exact hidx_sorted
  have hidx_lt : ∀ e ∈ bumped, e.index < n := by
    intro e he
    have : e.index ∈ bumped.map (·.index) := List.mem_map.mpr ⟨e, he, rfl⟩
    rw [hbump, bumpTop_map_index] at this
    obtain ⟨f, hf, hfe⟩ := List.mem_map.mp this
    have hf' : f ∈ entries := hperm.mem_iff.mp hf
    have := mkEntries_index_lt t S ws 0 f (by rw [← hent]; exact hf')
    omega
  -- the sum of all residues is k * S
  have hsorted_res_sum : (sorted.map (·.residue)).sum = (k : Int) * S := by
    rw [(hperm.map (·.residue)).sum_eq, hmapr, ← hR, ← hBt, hk_int]
    ring
  -- strictly positive residues in the bumped prefix
  have hpos_res : ∀ p (hp2 : p < sorted.length), p < k →
      0 < (sorted[p]).residue := by
    intro p hp2 hpk
    exact sorted_residues_pos sorted S hpos hspair
      (by
        intro e he
        obtain ⟨i, hi, rfl⟩ := hent_shape e (hperm.mem_iff.mp he)
        exact Int.emod_nonneg _ (ne_of_gt hpos))
      (by
        intro e he
        obtain ⟨i, hi, rfl⟩ := hent_shape e (hperm.mem_iff.mp he)
        exact Int.emod_lt_of_pos _ hpos)
      k hsorted_res_sum p hp2 hpk
  -- the k increments never wrap
  have hnowrap : ∀ p (hp : p < sorted.length), p < k →
      wrap64 ((sorted[p]).base + 1) = (sorted[p]).base + 1 := by
    intro p hp hpk
    have hp' : p < n := by omega
    obtain ⟨i, hi, hshape⟩ :=
      hent_shape (sorted[p]) (hperm.mem_iff.mp (List.getElem_mem hp))
    have hrpos : 0 < (sorted[p]).residue := hpos_res p hp hpk
    rw [hshape] at hrpos ⊢
    dsimp only at hrpos ⊢
    obtain ⟨hw0, hwS⟩ := hwb (ws[i]) (List.getElem_mem hi)
    have h1 := base_succ_le t S (ws[i]) hpos hw0 hwS (by simpa using hrpos)
    have h2 := (ediv_base_bounds t S (ws[i]) hpos hw0 hwS).1
    exact wrap64_eq_self (by omega) (by omega)
  set parts := writeParts bumped (List.replicate n 0) with hparts
  have hplen : parts.length = n := by
    rw [hparts, writeParts_length, List.length_replicate]
  -- the splitter takes the success branch and returns `parts`
  have hemp : ws.isEmpty = false := by
    cases ws with
    | nil => exact absurd rfl hne
    | cons w ws => rfl
  have hok : splitAmounts t ws = .ok parts := by
    rw [splitAmounts]
    rw [if_neg (by simp [hemp])]
    simp only [hS, hcr]
    rw [if_neg (by omega), if_neg (by omega)]
  -- conservation
  have hsum_parts : parts.sum = t := by
    have hzero : ∀ e ∈ bumped, (List.replicate n (0 : Int)).getD e.index 0 = 0 :=
      fun e _ => replicate_getD n e.index
    have hlt' : ∀ e ∈ bumped, e.index < (List.replicate n (0 : Int)).length := by
      intro e he
      rw [List.length_replicate]
      exact hidx_lt e he
    rw [hparts, writeParts_sum bumped (List.replicate n 0) hidx_bumped hlt' hzero]
    rw [hbump, bumpTop_sum k sorted (by omega) hnowrap]
    rw [(hperm.map (·.base)).sum_eq, hmapb]
    simp only [List.sum_replicate, smul_zero, zero_add, ← hB]
    omega
  -- per-index characterisation of the output
  have hchar : ∀ i (hi : i < n), ∃ p, ∃ hp : p < sorted.length,
      sorted[p] =
        { index := i
          base := (t * ws[i]).ediv S
          residue := (t * ws[i]).emod S } ∧
      parts.getD i 0 =
        (if p < k then (t * ws[i]).ediv S + 1 else (t * ws[i]).ediv S) := by
    intro i hi
    have hmem : ({ index := i
                   base := (t * ws[i]).ediv S
                   residue := (t * ws[i]).emod S } : Entry) ∈ entries := by
      rw [← hent_elem i hi (by omega)]
      exact List.getElem_mem (by omega)
    obtain ⟨p, hp, hpe⟩ := List.getElem_of_mem (hperm.mem_iff.mpr hmem)
    refine ⟨p, hp, hpe, ?_⟩
    have hbp : p < bumped.length := by omega
    have hbget : bumped[p] =
        if p < k then { sorted[p] with base := wrap64 ((sorted[p]).base + 1) }
        else sorted[p] :=
      bumpTop_getElem k sorted p hp hbp
    have hbmem : bumped[p] ∈ bumped := List.getElem_mem hbp
    have hbidx : (bumped[p]).index = i := by
      rw [hbget]
      by_cases hpk : p < k
      · rw [if_pos hpk, hpe]
      · rw [if_neg hpk, hpe]
    have hw := writeParts_getD_mem bumped (List.replicate n 0) (bumped[p])
      hidx_bumped hbmem (by rw [List.length_replicate, hbidx]; exact hi)
    rw [hbidx] at hw
    rw [hparts, hw, hbget]
    by_cases hpk : p < k
    · rw [if_pos hpk, if_pos hpk, hpe]
      have hnw := hnowrap p hp hpk
      rw [hpe] at hnw
      simpa using hnw
    · rw [if_neg hpk, if_neg hpk, hpe]
  -- per-part bounds
  have hbounds : ∀ x ∈ parts, min t 0 ≤ x ∧ x ≤ max t 0 := by
    intro x hx
    obtain ⟨i, hi, hxi⟩ := List.getElem_of_mem hx
    have hi' : i < n := by omega
    obtain ⟨p, hp, hpe, hval⟩ := hchar i hi'
    have hxval : x = parts.getD i 0 := by
      rw [List.getD_eq_getElem parts 0 hi, hxi]
    obtain ⟨hw0, hwS⟩ := hwb (ws[i]) (List.getElem_mem hi')
    have hbb := ediv_base_bounds t S (ws[i]) hpos hw0 hwS
    by_cases hpk : p < k
    · have hrpos : 0 < (t * ws[i]).emod S := by
        have := hpos_res p hp hpk
        rw [hpe] at this
        simpa using this
      have := base_succ_le t S (ws[i]) hpos hw0 hwS hrpos
      rw [hxval, hval, if_pos hpk]
      omega
    · rw [hxval, hval, if_neg hpk]
      omega
  -- monotonicity in the weights for non-negative totals
  have hmono : ∀ i j, i < n → j < n → 0 ≤ t →
      ws.getD j 0 < ws.getD i 0 → parts.getD j 0 ≤ parts.getD i 0 := by
    intro i j hi hj ht0 hwlt
    rw [List.getD_eq_getElem ws 0 hj, List.getD_eq_getElem ws 0 hi] at hwlt
    obtain ⟨pi, hpi, hpei, hvali⟩ := hchar i hi
    obtain ⟨pj, hpj, hpej, hvalj⟩ := hchar j hj
    rcases eq_or_lt_of_le ht0 with ht0' | ht0'
    · -- total zero: every part is zero
      have hz : ∀ m (hm : m < n), (t * ws[m]).ediv S = 0 := by
        intro m hm
        rw [← ht0', zero_mul]
        exact Int.zero_ediv S
      have hB0 : Bsum = 0 := by
        rw [hB]
        apply List.sum_eq_zero
        intro x hx
        obtain ⟨w, hw, rfl⟩ := List.mem_map.mp hx
        rw [← ht0', zero_mul]
        exact Int.zero_ediv S
      have hk0 : k = 0 := by omega
      rw [hvali, hvalj, hk0]
      simp [hz i hi, hz j hj]
    · -- total strictly positive
      have htlt : t * ws[j] < t * ws[i] := mul_lt_mul_of_pos_left hwlt ht0'
      have hble : (t * ws[j]).ediv S ≤ (t * ws[i]).ediv S :=
        Int.ediv_le_ediv hpos htlt.le
      rcases eq_or_lt_of_le hble with hbeq | hblt
      · -- equal bases: compare residues
        have hidi : S * ((t * ws[i]).ediv S) + (t * ws[i]).emod S = t * ws[i] :=
          Int.ediv_add_emod _ _
        have hidj : S * ((t * ws[j]).ediv S) + (t * ws[j]).emod S = t * ws[j] :=
          Int.ediv_add_emod _ _
        have hrlt : (t * ws[j]).emod S < (t * ws[i]).emod S := by
          rw [← hbeq] at hidi
          linarith
        have hij : i ≠ j := by
          intro h
          subst h
          exact lt_irrefl _ hwlt
        have hpij : pi ≠ pj := by
          intro h
          subst h
          rw [hpei] at hpej
          have := congrArg Entry.index hpej
          simp only at this
          exact hij this
        have hplt : pi < pj := by
          rcases lt_or_gt_of_ne hpij with h | h
          · exact h
          · exfalso
            have := (List.pairwise_iff_getElem.mp hspair) pj pi
              (by omega) (by omega) h
            rw [hpei, hpej] at this
            have : (t * ws[i]).emod S ≤ (t * ws[j]).emod S := this
            omega
        rw [hvali, hvalj]
        by_cases hpk : pj < k
        · rw [if_pos hpk, if_pos (by omega), hbeq]
        · rw [if_neg hpk, ← hbeq]
          by_cases hpk' : pi < k
          · rw [if_pos hpk']; omega
          · rw [if_neg hpk']
      · -- strictly larger base
        rw [hvali, hvalj]
        by_cases hpk : pj < k
        · rw [if_pos hpk]
          by_cases hpk' : pi < k
          · rw [if_pos hpk']; omega
          · rw [if_neg hpk']; omega
        · rw [if_neg hpk]
          by_cases hpk' : pi < k
          · rw [if_pos hpk']; omega
          · rw [if_neg hpk']; omega
  exact ⟨parts, hok, hplen, hsum_parts, hbounds, hmono⟩

/-! ### Tree allocator lemmas -/

/-- `distribute` never writes to the node it was called on: the allocated
amount of the returned node is always the amount that was assigned on entry,
whether the call succeeds or fails. -/
theorem distributeWith_allocated (nd : Node) (a : Money) :
    (distributeWith nd a).1.allocated = a := by
  cases nd with
  | mk nm w cs a0 =>
    rw [distributeWith]
    by_cases hcs : cs.isEmpty
    · simp [hcs, Node.allocated]
    · simp only [hcs, if_false]
      cases Split a (cs.map Node.weight) with
      | error e => simp [Node.allocated]
      | ok amounts => simp [Node.allocated]

theorem size_pos (nd : Node) : 1 ≤ nd.size := by
  cases nd with
  | mk nm w cs a => rw [Node.size]; omega

theorem goodWeights_spec {ws : List Int} (h : goodWeights ws = true) :
    (∀ w ∈ ws, 0 ≤ w) ∧ 0 < ws.sum ∧ ws.sum < 2 ^ 63 ∧
      (ws.length : Int) < 2 ^ 63 := by
  simp only [goodWeights, Bool.and_eq_true, List.all_eq_true,
    decide_eq_true_eq] at h
  exact ⟨h.1.1.1, h.1.1.2, h.1.2, h.2⟩

theorem Split_ok {a : Money} {ws : List Int} {parts : List Int}
    (h : splitAmounts a.amount ws = .ok parts) :
    Split a ws = .ok (parts.map fun x => Money.mk x a.currency) := by
  rw [Split, h]

/-- Joint success/conservation statement for `distribute` (node form) and its
child loop (list form), by strong induction on the size bound `N`. -/
theorem distribute_spec_all : ∀ N : Nat,
    (∀ (nd : Node) (a : Money), nd.size ≤ N → nd.validB = true →
      -2 ^ 63 ≤ a.amount → a.amount < 2 ^ 63 →
      (distributeWith nd a).2 = none ∧
      (distributeWith nd a).1.conservedB = true ∧
      (distributeWith nd a).1.allocated = a) ∧
    (∀ (cs : List Node) (amounts : List Money),
      Node.sizeList cs ≤ N → Node.validListB cs = true →
      amounts.length = cs.length →
      (∀ m ∈ amounts, -2 ^ 63 ≤ m.amount ∧ m.amount < 2 ^ 63) →
      (distributeList cs amounts).2 = none ∧
      (distributeList cs amounts).1.length = cs.length ∧
      Node.conservedListB (distributeList cs amounts).1 = true ∧
      (distributeList cs amounts).1.map Node.allocated = amounts) := by
  intro N
  induction N using Nat.strong_induction_on with
  | _ N IH =>
    constructor
    · -- node form
      intro nd a hsize hvalid hb1 hb2
      cases nd with
      | mk nm w cs a0 =>
        by_cases hcs : cs.isEmpty
        · have hcs' : cs = [] := List.isEmpty_iff.mp hcs
          subst hcs'
          refine ⟨?_, ?_, ?_⟩ <;>
            simp [distributeWith, Node.conservedB, Node.conservedListB,
              Node.allocated]
        · have hcs' : cs ≠ [] := by
            intro h; rw [h] at hcs; exact hcs rfl
          rw [Node.validB, Bool.and_eq_true, Bool.or_eq_true] at hvalid
          have hgw : goodWeights (cs.map Node.weight) = true := by
            rcases hvalid.1 with h | h
            · exact absurd h (by simpa using hcs)
            · exact h
          have hvl : Node.validListB cs = true := hvalid.2
          obtain ⟨hnn, hpos, hub, hlenw⟩ := goodWeights_spec hgw
          have hne : cs.map Node.weight ≠ [] := by
            simpa using hcs'
          obtain ⟨parts, hok, hplen, hpsum, hpbnd, _⟩ :=
            splitAmounts_spec a.amount (cs.map Node.weight) hne hnn hpos hub
              hb1 hb2 hlenw
          have hsplit := Split_ok hok
          have hszlist : Node.sizeList cs < N := by
            rw [Node.size] at hsize
            omega
          have hlist := (IH (Node.sizeList cs) hszlist).2 cs
            (parts.map fun x => Money.mk x a.currency)
            le_rfl hvl
            (by simp [hplen])
            (by
              intro m hm
              obtain ⟨x, hx, rfl⟩ := List.mem_map.mp hm
              have := hpbnd x hx
              constructor
              · simp only []
                omega
              · simp only []
                omega)
          obtain ⟨herr, hlen2, hcons2, hmap2⟩ := hlist
          have hres : distributeWith (Node.mk nm w cs a0) a =
              (Node.mk nm w
                (distributeList cs (parts.map fun x => Money.mk x a.currency)).1 a,
               (distributeList cs (parts.map fun x => Money.mk x a.currency)).2) := by
            rw [distributeWith]
            simp only [hcs, if_false, hsplit]
            rfl
          rw [hres]
          refine ⟨herr, ?_, by simp [Node.allocated]⟩
          simp only [Node.conservedB, Bool.and_eq_true, Bool.or_eq_true]
          refine ⟨Or.inr ?_, hcons2⟩
          rw [decide_eq_true_eq]
          have hamts :
              (distributeList cs (parts.map fun x => Money.mk x a.currency)).1.map
                (fun c => (Node.allocated c).amount) = parts := by
            have := congrArg (List.map Money.amount) hmap2
            rw [List.map_map, List.map_map] at this
            simpa [Function.comp_def] using this
          rw [hamts, hpsum]
    · -- list form
      intro cs amounts hsize hvalid hlen hbnd
      cases cs with
      | nil =>
        have : amounts = [] := List.length_eq_zero.mp (by simpa using hlen)
        subst this
        simp [distributeList, Node.conservedListB]
      | cons c cs =>
        cases amounts with
        | nil => simp at hlen
        | cons m ms =>
          rw [Node.validListB, Bool.and_eq_true] at hvalid
          have hszc : c.size < N := by
            rw [Node.sizeList] at hsize
            omega
          have hszcs : Node.sizeList cs < N := by
            rw [Node.sizeList] at hsize
            omega
          have hmbnd := hbnd m (by simp)
          have hnode := (IH c.size hszc).1 c m le_rfl hvalid.1
            hmbnd.1 hmbnd.2
          have hhead : (m :: ms).headD (⟨0, ""⟩ : Money) = m := rfl
          obtain ⟨herr1, hcons1, halloc1⟩ := hnode
          have hlist := (IH (Node.sizeList cs) hszcs).2 cs ms le_rfl hvalid.2
            (by simpa using hlen)
            (fun x hx => hbnd x (by simp [hx]))
          obtain ⟨herr2, hlen2, hcons2, hmap2⟩ := hlist
          have hres2 : distributeList (c :: cs) (m :: ms) =
              ((distributeWith c m).1 :: (distributeList cs ms).1,
               (distributeList cs ms).2) := by
            rw [distributeList]
            simp only [List.headD_cons, herr1, List.tail_cons]
          rw [hres2]
          refine ⟨herr2, by simp [hlen2], ?_, ?_⟩
          · simp only [Node.conservedListB, Bool.and_eq_true]
            exact ⟨hcons1, hcons2⟩
          · simp [halloc1, hmap2]

/-- Frame lemma: `distribute` and its child loop only ever write allocations;
the erasure of the tree (names, weights, child structure) is untouched,
whether or not an error occurs. -/
theorem eraseAlloc_distribute_all : ∀ N : Nat,
    (∀ (nd : Node) (a : Money), nd.size ≤ N →
      ((distributeWith nd a).1).eraseAlloc = nd.eraseAlloc) ∧
    (∀ (cs : List Node) (amounts : List Money), Node.sizeList cs ≤ N →
      Node.eraseAllocList ((distributeList cs amounts).1) =
        Node.eraseAllocList cs) := by
  intro N
  induction N using Nat.strong_induction_on with
  | _ N IH =>
    constructor
    · intro nd a hsize
      cases nd with
      | mk nm w cs a0 =>
        by_cases hcs : cs.isEmpty
        · simp [distributeWith, hcs, Node.eraseAlloc]
        · rw [distributeWith]
          simp only [hcs, if_false]
          cases hsp : Split a (cs.map Node.weight) with
          | error e => simp [Node.eraseAlloc]
          | ok amounts =>
            show (Node.mk nm w (distributeList cs amounts).1 a).eraseAlloc =
              (Node.mk nm w cs a0).eraseAlloc
            have hszlist : Node.sizeList cs < N := by
              rw [Node.size] at hsize
              omega
            simp only [Node.eraseAlloc]
            rw [(IH (Node.sizeList cs) hszlist).2 cs amounts le_rfl]
    · intro cs amounts hsize
      cases cs with
      | nil => simp [distributeList]
      | cons c cs =>
        have hszc : c.size < N := by
          rw [Node.sizeList] at hsize
          omega
        have hszcs : Node.sizeList cs < N := by
          rw [Node.sizeList] at hsize
          omega
        have hnode := (IH c.size hszc).1 c (amounts.headD ⟨0, ""⟩) le_rfl
        cases he : (distributeWith c (amounts.headD ⟨0, ""⟩)).2 with
        | some err =>
          have hres : distributeList (c :: cs) amounts =
              ((distributeWith c (amounts.headD ⟨0, ""⟩)).1 :: cs, some err) := by
            rw [distributeList]
            simp only [he]
          rw [hres]
          simp only [Node.eraseAllocList]
          rw [hnode]
        | none =>
          have hres : distributeList (c :: cs) amounts =
              ((distributeWith c (amounts.headD ⟨0, ""⟩)).1 ::
                  (distributeList cs amounts.tail).1,
               (distributeList cs amounts.tail).2) := by
            rw [distributeList]
            simp only [he]
          rw [hres]
          simp only [Node.eraseAllocList]
          rw [hnode, (IH (Node.sizeList cs) hszcs).2 cs amounts.tail le_rfl]

theorem headD_eq_getD {α : Type} (l : List α) (d : α) : l.headD d = l.getD 0 d := by
  cases l <;> rfl

theorem getD_tail {α : Type} (l : List α) (kk : Nat) (d : α) :
    l.tail.getD kk d = l.getD (kk + 1) d := by
  cases l <;> rfl

/-- When the child loop of `distribute` returns an error, there is a failing
position `kk`: every later sibling is returned exactly as it was passed in
(untouched), while child `kk` itself did get its amount assigned before its
subtree failed. -/
theorem distributeList_error_frame : ∀ (cs : List Node) (amounts : List Money)
    (cs' : List Node) (e : SplitErr),
    distributeList cs amounts = (cs', some e) →
    ∃ kk, kk < cs.length ∧ cs'.length = cs.length ∧
      (∀ j, kk < j → cs'.getD j defaultNode = cs.getD j defaultNode) ∧
      (cs'.getD kk defaultNode).allocated = amounts.getD kk ⟨0, ""⟩ := by
  intro cs
  induction cs with
  | nil =>
    intro amounts cs' e h
    rw [distributeList] at h
    exact absurd (congrArg Prod.snd h) (by simp)
  | cons c cs ih =>
    intro amounts cs' e h
    cases he : (distributeWith c (amounts.headD ⟨0, ""⟩)).2 with
    | some err =>
      have hres : distributeList (c :: cs) amounts =
          ((distributeWith c (amounts.headD ⟨0, ""⟩)).1 :: cs, some err) := by
        rw [distributeList]
        simp only [he]
      rw [hres] at h
      have hcs' : cs' = (distributeWith c (amounts.headD ⟨0, ""⟩)).1 :: cs :=
        (congrArg Prod.fst h).symm
      subst hcs'
      refine ⟨0, by simp, by simp, ?_, ?_⟩
      · intro j hj
        cases j with
        | zero => omega
        | succ j => simp only [List.getD_cons_succ]
      · simp only [List.getD_cons_zero]
        rw [distributeWith_allocated, headD_eq_getD]
    | none =>
      have hres : distributeList (c :: cs) amounts =
          ((distributeWith c (amounts.headD ⟨0, ""⟩)).1 ::
              (distributeList cs amounts.tail).1,
            (distributeList cs amounts.tail).2) := by
        rw [distributeList]
        simp only [he]
      rw [hres] at h
      have h2 : (distributeList cs amounts.tail).2 = some e := congrArg Prod.snd h
      have hpair : distributeList cs amounts.tail =
          ((distributeList cs amounts.tail).1, some e) := by
        rw [← h2]
      obtain ⟨kk, hkk, hlen, hfr, hal⟩ :=
        ih amounts.tail (distributeList cs amounts.tail).1 e hpair
      have hcs' : cs' = (distributeWith c (amounts.headD ⟨0, ""⟩)).1 ::
          (distributeList cs amounts.tail).1 := (congrArg Prod.fst h).symm
      subst hcs'
      refine ⟨kk + 1, by simpa using Nat.succ_lt_succ hkk, by simp [hlen], ?_, ?_⟩
      · intro j hj
        cases j with
        | zero => omega
        | succ j =>
          simp only [List.getD_cons_succ]
          exact hfr j (by omega)
      · simp only [List.getD_cons_succ]
        rw [hal, getD_tail]

/-! ### Claim theorems -/

/-- C1 (counterexample): the claim quantifies over every non-empty list of
non-negative weights with strictly positive sum, but for the weights
`[2^62, 2^62, 2^62, 2^62]` — all non-negative with positive sum — the native
`int64` accumulation of `sumWeights` wraps to zero and `Split` fails with
`InvalidWeights` instead of succeeding. -/
theorem C1_counterexample :
    (∀ w ∈ ([4611686018427387904, 4611686018427387904, 4611686018427387904,
        4611686018427387904] : List Int), 0 ≤ w) ∧
    (0 : Int) < ([4611686018427387904, 4611686018427387904,
        4611686018427387904, 4611686018427387904] : List Int).sum ∧
    Split ⟨100, "USD"⟩ [4611686018427387904, 4611686018427387904,
        4611686018427387904, 4611686018427387904] = .error .invalidWeights := by
  decide

/-- C1 (amended): for every `int64` total and every non-empty list of
non-negative weights whose sum is strictly positive and fits in `int64`
(with the Go-slice length bound), `Split` succeeds and the returned parts sum
exactly to the total. -/
theorem C1_conservation (total : Money) (ws : List Int)
    (hne : ws ≠ []) (hnn : ∀ w ∈ ws, 0 ≤ w) (hpos : 0 < ws.sum)
    (hub : ws.sum < 2 ^ 63) (ht1 : -2 ^ 63 ≤ total.amount)
    (ht2 : total.amount < 2 ^ 63) (hlen : (ws.length : Int) < 2 ^ 63) :
    ∃ parts : List Money, Split total ws = .ok parts ∧
      parts.length = ws.length ∧
      (parts.map Money.amount).sum = total.amount := by
  obtain ⟨p, hok, hplen, hpsum, _, _⟩ :=
    splitAmounts_spec total.amount ws hne hnn hpos hub ht1 ht2 hlen
  refine ⟨p.map fun x => Money.mk x total.currency, Split_ok hok, ?_, ?_⟩
  · simp [hplen]
  · rw [List.map_map]
    simpa [Function.comp_def] using hpsum

/-- C1 (witness): a concrete instance of the amended conservation theorem. -/
theorem C1_conservation_witness :
    ∃ parts : List Money, Split ⟨100, "USD"⟩ [1, 2, 3] = .ok parts ∧
      parts.length = ([1, 2, 3] : List Int).length ∧
      (parts.map Money.amount).sum = (100 : Int) :=
  C1_conservation ⟨100, "USD"⟩ [1, 2, 3] (by decide) (by decide) (by decide)
    (by decide) (by decide) (by decide) (by decide)

/-- C3 (evaluation): the concrete instance of the claim: with three equal
weights and total 5, the two earliest indices receive the extra units, giving
`[2, 2, 1]`.  This holds in the embedding, which models the stable
insertion-sort behaviour Go exhibits for short slices; the general
index-ascending tie-break rule is not guaranteed by the code, since
`sort.Slice` is keyed only on the residue and is documented as unstable. -/
theorem C3_concrete_example :
    Split ⟨5, "USD"⟩ [1, 1, 1] =
      .ok [⟨2, "USD"⟩, ⟨2, "USD"⟩, ⟨1, "USD"⟩] := by
  decide

/-- C4 (counterexample): monotonicity fails for negative totals, which the
claim explicitly includes: `Split(-5, [2, 1])` returns `[-3, -2]`, so the
index with the strictly larger weight receives the strictly smaller part. -/
theorem C4_counterexample :
    Split ⟨-5, "USD"⟩ [2, 1] = .ok [⟨-3, "USD"⟩, ⟨-2, "USD"⟩] ∧
    (1 : Int) < 2 ∧ (-3 : Int) < -2 := by
  decide

/-- C4 (amended): monotonicity holds when additionally the total is
non-negative and the weight sum fits in `int64`: if `weight[i] > weight[j]`
then `part[i] ≥ part[j]`. -/
theorem C4_monotonicity (total : Money) (ws : List Int) (parts : List Money)
    (hne : ws ≠ []) (hnn : ∀ w ∈ ws, 0 ≤ w) (hpos : 0 < ws.sum)
    (hub : ws.sum < 2 ^ 63) (ht0 : 0 ≤ total.amount)
    (ht2 : total.amount < 2 ^ 63) (hlen : (ws.length : Int) < 2 ^ 63)
    (hok : Split total ws = .ok parts)
    (i j : Nat) (hi : i < ws.length) (hj : j < ws.length)
    (hw : ws.getD j 0 < ws.getD i 0) :
    (parts.getD j ⟨0, ""⟩).amount ≤ (parts.getD i ⟨0, ""⟩).amount := by
  obtain ⟨p, hok', hplen, _, _, hmono⟩ :=
    splitAmounts_spec total.amount ws hne hnn hpos hub (by omega) ht2 hlen
  have hparts : parts = p.map fun x => Money.mk x total.currency :=
    SplitResult.ok.inj (hok.symm.trans (Split_ok hok'))
  subst hparts
  have hplen' : (p.map fun x => Money.mk x total.currency).length = ws.length := by
    simp [hplen]
  have hgd : ∀ m (hm : m < ws.length),
      ((p.map fun x => Money.mk x total.currency).getD m ⟨0, ""⟩).amount =
        p.getD m 0 := by
    intro m hm
    have hm' : m < (p.map fun x => Money.mk x total.currency).length := by
      omega
    have hmp : m < p.length := by
      simpa using hm'
    rw [List.getD_eq_getElem _ _ hm', List.getD_eq_getElem _ _ hmp]
    simp
  rw [hgd i hi, hgd j hj]
  exact hmono i j hi hj ht0 hw

/-- C4 (witness): a concrete instance of the amended monotonicity theorem,
`Split(10, [3, 1]) = [8, 2]` with `weight[0] > weight[1]` and
`part[0] ≥ part[1]`. -/
theorem C4_monotonicity_witness :
    (([Money.mk 8 "USD", Money.mk 2 "USD"] : List Money).getD 1 ⟨0, ""⟩).amount ≤
      (([Money.mk 8 "USD", Money.mk 2 "USD"] : List Money).getD 0 ⟨0, ""⟩).amount :=
  C4_monotonicity ⟨10, "USD"⟩ [3, 1] [Money.mk 8 "USD", Money.mk 2 "USD"]
    (by decide) (by decide) (by decide) (by decide) (by decide) (by decide)
    (by decide) (by decide) 0 1 (by decide) (by decide) (by decide)

/-- C5 (counterexample): the claimed error taxonomy fails in both directions
at the `int64` extremes.  The weights `[2^62, 2^62, 2^62, 2^62]` are non-empty
with a non-zero mathematical sum, yet `Split` reports `InvalidWeights`
(their native `int64` sum wraps to zero); and with weights
`[MAX_INT64, 1]` the wrapped sum is `-2^63`, the computed remainder exceeds
the slice length, and the remainder loop panics (index out of range) — a
failure mode other than `InvalidWeights`. -/
theorem C5_counterexample :
    Split ⟨7, "USD"⟩ [4611686018427387904, 4611686018427387904,
        4611686018427387904, 4611686018427387904] = .error .invalidWeights ∧
    ([4611686018427387904, 4611686018427387904, 4611686018427387904,
        4611686018427387904] : List Int) ≠ [] ∧
    ([4611686018427387904, 4611686018427387904, 4611686018427387904,
        4611686018427387904] : List Int).sum ≠ 0 ∧
    Split ⟨2, "USD"⟩ [9223372036854775807, 1] = .error .panicked := by
  decide

/-- C5 (amended): `Split` returns the `InvalidWeights` error exactly when the
weight list is empty or its native `int64`-wrapped sum is zero; the other
inputs either succeed or hit the remainder-loop panic, never
`InvalidWeights`. -/
theorem C5_error_iff (total : Money) (ws : List Int) :
    Split total ws = .error .invalidWeights ↔
      ws = [] ∨ sumWeights64 ws = 0 := by
  by_cases h1 : ws.isEmpty
  · have h1' : ws = [] := List.isEmpty_iff.mp h1
    subst h1'
    simp [Split, splitAmounts]
  · have hne : ¬ws = [] := by simpa [List.isEmpty_iff] using h1
    by_cases h2 : sumWeights64 ws = 0
    · constructor
      · intro _
        exact Or.inr h2
      · intro _
        rw [Split, splitAmounts]
        simp [h1, h2]
    · constructor
      · intro h
        exfalso
        rw [Split, splitAmounts] at h
        simp only [h1, Bool.false_eq_true, if_false, h2] at h
        by_cases h3 : (ws.length : Int) <
            computeRemainder total.amount (mkEntries total.amount (sumWeights64 ws) 0 ws)
        · rw [if_pos h3] at h
          simp at h
        · rw [if_neg h3] at h
          simp at h
      · intro h
        rcases h with h | h
        · exact absurd h hne
        · exact absurd h h2

/-- C7 (confirmed): `Split(MAX_INT64, [1, 1])` succeeds, both parts are
non-negative and sum exactly to `MAX_INT64`; the `total * weight` products are
taken in exact (big.Int) arithmetic in the embedding exactly as in the code,
so nothing wraps. -/
theorem C7_overflow_safety :
    Split ⟨9223372036854775807, "USD"⟩ [1, 1] =
      .ok [⟨4611686018427387904, "USD"⟩, ⟨4611686018427387903, "USD"⟩] ∧
    (4611686018427387904 : Int) + 4611686018427387903 = 9223372036854775807 ∧
    (0 : Int) ≤ 4611686018427387904 ∧ (0 : Int) ≤ 4611686018427387903 := by
  decide

/-- C8 (counterexample): non-negativity fails when the `int64` weight-sum
accumulation overflows: with total 1 and weights
`[MAX_INT64, MAX_INT64, 1]` (all non-negative, positive sum), the wrapped sum
is `-1` and `Split` succeeds returning strictly negative parts. -/
theorem C8_counterexample :
    Split ⟨1, "USD"⟩ [9223372036854775807, 9223372036854775807, 1] =
      .ok [⟨-9223372036854775807, "USD"⟩, ⟨-9223372036854775807, "USD"⟩,
        ⟨-1, "USD"⟩] ∧
    (0 : Int) ≤ 1 ∧
    (∀ w ∈ ([9223372036854775807, 9223372036854775807, 1] : List Int), 0 ≤ w) ∧
    (0 : Int) < ([9223372036854775807, 9223372036854775807, 1] : List Int).sum ∧
    (-9223372036854775807 : Int) < 0 := by
  decide

/-- C8 (amended): for every non-negative `int64` total and valid weights whose
sum also fits in `int64`, every part returned by `Split` is non-negative. -/
theorem C8_nonneg (total : Money) (ws : List Int)
    (hne : ws ≠ []) (hnn : ∀ w ∈ ws, 0 ≤ w) (hpos : 0 < ws.sum)
    (hub : ws.sum < 2 ^ 63) (ht0 : 0 ≤ total.amount)
    (ht2 : total.amount < 2 ^ 63) (hlen : (ws.length : Int) < 2 ^ 63) :
    ∃ parts : List Money, Split total ws = .ok parts ∧
      ∀ m ∈ parts, 0 ≤ m.amount := by
  obtain ⟨p, hok, _, _, hbnd, _⟩ :=
    splitAmounts_spec total.amount ws hne hnn hpos hub (by omega) ht2 hlen
  refine ⟨p.map fun x => Money.mk x total.currency, Split_ok hok, ?_⟩
  intro m hm
  obtain ⟨x, hx, rfl⟩ := List.mem_map.mp hm
  have := (hbnd x hx).1
  have hmin : min total.amount 0 = 0 := min_eq_right ht0
  simp only []
  omega

/-- C8 (witness): a concrete instance of the amended non-negativity
theorem. -/
theorem C8_nonneg_witness :
    ∃ parts : List Money, Split ⟨7, "USD"⟩ [1, 2] = .ok parts ∧
      ∀ m ∈ parts, 0 ≤ m.amount :=
  C8_nonneg ⟨7, "USD"⟩ [1, 2] (by decide) (by decide) (by decide) (by decide)
    (by decide) (by decide) (by decide)

set_option maxRecDepth 4000 in
/-- C2 (counterexample): the claim quantifies over every tree whose internal
nodes carry non-negative child weights with positive sum, but a root with four
children of weight `2^62` each — non-negative weights with positive sum —
makes `AllocateTree` fail with `InvalidWeights` (the `int64` weight-sum
accumulation wraps to zero) instead of succeeding. -/
theorem C2_counterexample :
    (AllocateTree
        (Node.mk "root" 1
          [Node.mk "a" 4611686018427387904 [] ⟨0, ""⟩,
           Node.mk "b" 4611686018427387904 [] ⟨0, ""⟩,
           Node.mk "c" 4611686018427387904 [] ⟨0, ""⟩,
           Node.mk "d" 4611686018427387904 [] ⟨0, ""⟩] ⟨0, ""⟩)
        ⟨100, "USD"⟩).2 = some .invalidWeights ∧
    (∀ w ∈ ([4611686018427387904, 4611686018427387904, 4611686018427387904,
        4611686018427387904] : List Int), 0 ≤ w) ∧
    (0 : Int) < ([4611686018427387904, 4611686018427387904,
        4611686018427387904, 4611686018427387904] : List Int).sum := by
  refine ⟨rfl, by decide, by decide⟩

/-- C2 (amended): for every tree whose internal nodes all carry non-negative
child weights with a strictly positive sum that fits in `int64` (and child
counts below `2^63`), and every `int64` total, `AllocateTree` succeeds, every
internal node's allocated amount equals the sum of its children's allocated
amounts (recursively, as checked by `conservedB`), and the root's allocation
is the total. -/
theorem C2_tree_conservation (root : Node) (total : Money)
    (hv : root.validB = true) (h1 : -2 ^ 63 ≤ total.amount)
    (h2 : total.amount < 2 ^ 63) :
    (AllocateTree root total).2 = none ∧
    ((AllocateTree root total).1).conservedB = true ∧
    ((AllocateTree root total).1).allocated = total := by
  have h := (distribute_spec_all root.size).1 root total le_rfl hv h1 h2
  rw [AllocateTree]
  exact h

/-- C2 (witness): the spec's own scenario — a root with children A(1), B(1),
C(1) where A additionally has X(1), Y(1), Z(1), allocating 10 — succeeds with
conservation at every internal node. -/
theorem C2_tree_conservation_witness :
    (AllocateTree
        (NewNode "root" 1
          [NewNode "A" 1 [NewNode "X" 1 [], NewNode "Y" 1 [], NewNode "Z" 1 []],
           NewNode "B" 1 [], NewNode "C" 1 []])
        ⟨10, "USD"⟩).2 = none ∧
    ((AllocateTree
        (NewNode "root" 1
          [NewNode "A" 1 [NewNode "X" 1 [], NewNode "Y" 1 [], NewNode "Z" 1 []],
           NewNode "B" 1 [], NewNode "C" 1 []])
        ⟨10, "USD"⟩).1).conservedB = true ∧
    ((AllocateTree
        (NewNode "root" 1
          [NewNode "A" 1 [NewNode "X" 1 [], NewNode "Y" 1 [], NewNode "Z" 1 []],
           NewNode "B" 1 [], NewNode "C" 1 []])
        ⟨10, "USD"⟩).1).allocated = ⟨10, "USD"⟩ :=
  C2_tree_conservation
    (NewNode "root" 1
      [NewNode "A" 1 [NewNode "X" 1 [], NewNode "Y" 1 [], NewNode "Z" 1 []],
       NewNode "B" 1 [], NewNode "C" 1 []])
    ⟨10, "USD"⟩ (by decide) (by decide) (by decide)

/-- C6 (counterexample): the claim says that when an error arises inside the
subtree of child `i`, the later siblings already hold their assigned amounts.
In the code the assignment loop is interleaved with the recursion, so they do
not: allocating 10 over a root with children A (whose own child X has weight
0, forcing an error inside A's subtree) and B leaves B's allocation at the
zero value, not at its computed share of 5. -/
theorem C6_counterexample :
    (AllocateTree
        (Node.mk "root" 1
          [Node.mk "A" 1 [Node.mk "X" 0 [] ⟨0, ""⟩] ⟨0, ""⟩,
           Node.mk "B" 1 [] ⟨0, ""⟩] ⟨0, ""⟩)
        ⟨10, "USD"⟩).2 = some .invalidWeights ∧
    (((AllocateTree
        (Node.mk "root" 1
          [Node.mk "A" 1 [Node.mk "X" 0 [] ⟨0, ""⟩] ⟨0, ""⟩,
           Node.mk "B" 1 [] ⟨0, ""⟩] ⟨0, ""⟩)
        ⟨10, "USD"⟩).1).children.getD 1 defaultNode).allocated = ⟨0, ""⟩ ∧
    (⟨0, ""⟩ : Money) ≠ ⟨5, "USD"⟩ := by
  refine ⟨rfl, rfl, by decide⟩

/-- C6 (amended): children are assigned and recursed one at a time, in order;
when the child loop returns an error there is a failing position `kk` such
that every later sibling is returned exactly as it was passed in (its
allocation untouched), while child `kk` itself did receive its assigned
amount before its subtree failed. -/
theorem C6_error_frame (cs : List Node) (amounts : List Money)
    (cs' : List Node) (e : SplitErr)
    (h : distributeList cs amounts = (cs', some e)) :
    ∃ kk, kk < cs.length ∧ cs'.length = cs.length ∧
      (∀ j, kk < j → cs'.getD j defaultNode = cs.getD j defaultNode) ∧
      (cs'.getD kk defaultNode).allocated = amounts.getD kk ⟨0, ""⟩ :=
  distributeList_error_frame cs amounts cs' e h

/-- C6 (witness): the frame theorem applied to the concrete failing child
list `[A, B]` with amounts `[5, 5]`: the error arises inside A's subtree,
A has been assigned its 5, and B is untouched. -/
theorem C6_error_frame_witness :
    ∃ kk, kk < ([Node.mk "A" 1 [Node.mk "X" 0 [] ⟨0, ""⟩] ⟨0, ""⟩,
        Node.mk "B" 1 [] ⟨0, ""⟩] : List Node).length ∧
      ([Node.mk "A" 1 [Node.mk "X" 0 [] ⟨0, ""⟩] ⟨5, "USD"⟩,
        Node.mk "B" 1 [] ⟨0, ""⟩] : List Node).length =
        ([Node.mk "A" 1 [Node.mk "X" 0 [] ⟨0, ""⟩] ⟨0, ""⟩,
          Node.mk "B" 1 [] ⟨0, ""⟩] : List Node).length ∧
      (∀ j, kk < j →
        ([Node.mk "A" 1 [Node.mk "X" 0 [] ⟨0, ""⟩] ⟨5, "USD"⟩,
          Node.mk "B" 1 [] ⟨0, ""⟩] : List Node).getD j defaultNode =
        ([Node.mk "A" 1 [Node.mk "X" 0 [] ⟨0, ""⟩] ⟨0, ""⟩,
          Node.mk "B" 1 [] ⟨0, ""⟩] : List Node).getD j defaultNode) ∧
      (([Node.mk "A" 1 [Node.mk "X" 0 [] ⟨0, ""⟩] ⟨5, "USD"⟩,
          Node.mk "B" 1 [] ⟨0, ""⟩] : List Node).getD kk defaultNode).allocated =
        ([⟨5, "USD"⟩, ⟨5, "USD"⟩] : List Money).getD kk ⟨0, ""⟩ :=
  C6_error_frame
    [Node.mk "A" 1 [Node.mk "X" 0 [] ⟨0, ""⟩] ⟨0, ""⟩, Node.mk "B" 1 [] ⟨0, ""⟩]
    [⟨5, "USD"⟩, ⟨5, "USD"⟩]
    [Node.mk "A" 1 [Node.mk "X" 0 [] ⟨0, ""⟩] ⟨5, "USD"⟩,
     Node.mk "B" 1 [] ⟨0, ""⟩]
    .invalidWeights rfl

/-- C9 (confirmed): `AllocateTree` only ever writes allocations — for every
tree and total, whether the call succeeds or fails, erasing the `Allocated`
fields of the returned tree gives back exactly the erasure of the input tree,
so every node's name, weight, and child list (structure and order) are
unchanged. -/
theorem C9_frame (root : Node) (total : Money) :
    ((AllocateTree root total).1).eraseAlloc = root.eraseAlloc := by
  rw [AllocateTree]
  exact (eraseAlloc_distribute_all root.size).1 root total le_rfl

/-- C10 (confirmed): `AllocateTree` assigns the total to the root before any
validation, and nothing later overwrites it, so for every tree and total —
including calls that return an error — the returned root's `Allocated` equals
the total. -/
theorem C10_root_assigned (root : Node) (total : Money) :
    ((AllocateTree root total).1).allocated = total := by
  rw [AllocateTree]
  exact distributeWith_allocated root total

end GMoney
